import Mathlib

/-!
Verification development for the camelCase → snake_case SQL column renamer
(`convert_column_names.py`).

The program is embedded shallowly:

* strings are `List Char`;
* the regex substitution `re.sub(r'\b' + key + r'\b', target, s)` is the
  recursive function `subst`, which scans the text left to right keeping
  track of whether the previous character was an identifier character
  (Python's `\b` word boundary, restricted to the ASCII identifier
  alphabet `[A-Za-z0-9_]` used by all inputs of this program);
* `re.search` for the same pattern is `occurs`;
* the two-pass regex of `camel_to_snake` is `pass1`/`pass2`;
* the filesystem is an association list from path to content, and the
  per-file pipeline of `convert_sql_file` (read, backup via
  `shutil.copy2`, substitute, write) records an explicit event trace so
  that the ordering of its I/O steps can be stated.
-/

/-- Identifier character, i.e. Python's `\w` on the ASCII alphabet:
letters, digits and underscore. -/
def wordChar (c : Char) : Bool := c.isUpper || c.isLower || c.isDigit || c == '_'

/-- The trailing `\b` of the pattern: the match may be followed by the end
of the text or by a non-identifier character. -/
def okAfter : List Char → Bool
  | [] => true
  | c :: _ => !wordChar c

/-- The pattern `\b key \b` matches at the current position of `s`: the
previous character (tracked by `pw` = "previous char is a word char") is
not an identifier character, `key` is a prefix of `s`, and the character
after the match, if any, is not an identifier character. -/
def matchAt (key s : List Char) (pw : Bool) : Bool :=
  !pw && key.isPrefixOf s && okAfter (s.drop key.length)

/-- `re.search(r'\b key \b', s)` for a nonempty alphanumeric `key`:
some position of `s` carries a boundary-delimited occurrence of `key`.
`pw` records whether the character just before the remaining text is an
identifier character (`false` at the start of the text). -/
def occurs (key : List Char) : Bool → List Char → Bool
  | _, [] => false
  | pw, c :: rest => matchAt key (c :: rest) pw || occurs key (wordChar c) rest

/-- Worker for `re.sub(r'\b key \b', t, s)` with key `k0 :: ks`.
`skip` counts characters of an already-replaced occurrence that still
have to be consumed; at `skip = 0` the scan looks for the next match.
On a match the replacement `t` is emitted, the head character of the
occurrence is consumed, and the remaining `ks.length` characters are
consumed through the skip state, after which the boundary context is the
occurrence's last character. -/
def substS (k0 : Char) (ks : List Char) (t : List Char) : Nat → Bool → List Char → List Char
  | _, _, [] => []
  | skip + 1, pw, _ :: rest => substS k0 ks t skip pw rest
  | 0, pw, c :: rest =>
    if matchAt (k0 :: ks) (c :: rest) pw then
      t ++ substS k0 ks t ks.length (wordChar (ks.getLastD k0)) rest
    else
      c :: substS k0 ks t 0 (wordChar c) rest

/-- `re.sub(r'\b key \b', t, s)` for the nonempty key `k0 :: ks`:
replace every boundary-delimited occurrence, scanning left to right,
resuming after each replaced occurrence (whose last character, a word
character, becomes the boundary context for the rest of the scan). -/
def subst (k0 : Char) (ks : List Char) (t : List Char) (pw : Bool) (s : List Char) : List Char :=
  substS k0 ks t 0 pw s

/-- ASCII lowercasing of one character, as `str.lower()` acts on the
ASCII identifiers this program handles. -/
def lowerChar (c : Char) : Char :=
  if c.isUpper then Char.ofNat (c.toNat + 32) else c

/-- Worker for the first pass of `camel_to_snake`,
`re.sub('(.)([A-Z][a-z]+)', r'\1_\2', s)`. A match is any non-newline
character, an uppercase letter and a maximal nonempty run of lowercase
letters; an underscore is inserted between the two groups and the scan
resumes after the lowercase run, whose characters are copied verbatim
through the `skip` state. -/
def pass1S : Nat → List Char → List Char
  | _, [] => []
  | skip + 1, c :: rest => c :: pass1S skip rest
  | 0, [c] => [c]
  | 0, c1 :: c2 :: rest =>
    if c1 != '\n' && c2.isUpper && (match rest with | r :: _ => r.isLower | [] => false) then
      c1 :: '_' :: c2 :: pass1S (rest.takeWhile Char.isLower).length rest
    else
      c1 :: pass1S 0 (c2 :: rest)

/-- First pass of `camel_to_snake`. -/
def pass1 (s : List Char) : List Char := pass1S 0 s

/-- Second pass of `camel_to_snake`:
`re.sub('([a-z0-9])([A-Z])', r'\1_\2', s)`: an underscore is inserted
between a lowercase letter or digit and an immediately following
uppercase letter; the scan resumes after the uppercase letter. -/
def pass2 : List Char → List Char
  | [] => []
  | [c] => [c]
  | c1 :: c2 :: rest =>
    if (c1.isLower || c1.isDigit) && c2.isUpper then
      c1 :: '_' :: c2 :: pass2 rest
    else
      c1 :: pass2 (c2 :: rest)

/-- `camel_to_snake`: both regex passes, then lowercase the result. -/
def camel_to_snake (s : List Char) : List Char :=
  (pass2 (pass1 s)).map lowerChar

/-- The static column mapping table, in the source's (insertion) order. -/
def column_mappings : List (String × String) :=
  [ ("createdAt", "created_at"),
    ("updatedAt", "updated_at"),
    ("verifiedAt", "verified_at"),
    ("regionId", "region_id"),
    ("categoryId", "category_id"),
    ("userId", "user_id"),
    ("phenomenonId", "phenomenon_id"),
    ("catatanSurveiId", "catatan_survei_id"),
    ("scrappingBeritaId", "scrapping_berita_id"),
    ("respondenId", "responden_id"),
    ("isVerified", "is_verified"),
    ("isActive", "is_active"),
    ("regionCode", "region_code"),
    ("analysisType", "analysis_type"),
    ("nomorResponden", "nomor_responden"),
    ("matchCount", "match_count"),
    ("periodeSurvei", "periode_survei"),
    ("startDate", "start_date"),
    ("endDate", "end_date"),
    ("idBerita", "id_berita"),
    ("portalBerita", "portal_berita"),
    ("linkBerita", "link_berita"),
    ("tanggalBerita", "tanggal_berita"),
    ("tanggalScrap", "tanggal_scrap"),
    ("matchedKeywords", "matched_keywords"),
    ("portalUrl", "portal_url"),
    ("maxPages", "max_pages"),
    ("delayMs", "delay_ms"),
    ("cronSchedule", "cron_schedule"),
    ("lastRun", "last_run"),
    ("nextRun", "next_run") ]

/-- One iteration of the replacement loop of `convert_sql_file`
(lines 76–81): if the pattern is found in the current content, substitute
and append the pair to `replacements_made`. The empty-key branch is dead
code (every key of the table is nonempty) and leaves the state unchanged. -/
def applyPair (acc : List Char × List (String × String)) (p : String × String) :
    List Char × List (String × String) :=
  match p.1.toList with
  | [] => acc
  | k0 :: ks =>
    if occurs (k0 :: ks) false acc.1 then
      (subst k0 ks p.2.toList false acc.1, acc.2 ++ [p])
    else acc

/-- The in-memory part of `convert_sql_file`: fold the replacement loop
over the mapping table and return the new content together with
`len(replacements_made)`. -/
def convertContent (content : List Char) : List Char × Nat :=
  let r := column_mappings.foldl applyPair (content, [])
  (r.1, r.2.length)

/-- A filesystem: an association list from path to text content. -/
abbrev FS := List (String × List Char)

/-- Look a path up in the filesystem. -/
def getFile : FS → String → Option (List Char)
  | [], _ => none
  | (n, c) :: rest, p => if n = p then some c else getFile rest p

/-- Create or overwrite a file. -/
def setFile : FS → String → List Char → FS
  | [], p, c => [(p, c)]
  | (n, d) :: rest, p, c =>
    if n = p then (p, c) :: rest else (n, d) :: setFile rest p c

/-- The observable I/O steps of the per-file pipeline. -/
inductive Event : Type where
  | readEv : String → Event
  | backupEv : String → String → Event
  | writeEv : String → Event
deriving DecidableEq, BEq, Repr

/-- The body of `convert_sql_file` once the file's content has been
obtained: the pipeline reads the file (lines 24–25), then copies the
still-unmodified file to `<path>.backup` (line 29), computes the
substituted content, and finally overwrites the original (lines 84–85).
The event trace records this order. -/
def convertOn (fs : FS) (p : String) (content : List Char) :
    FS × Nat × List Event :=
  let fs1 := setFile fs (p ++ ".backup") content
  let r := convertContent content
  let fs2 := setFile fs1 p r.1
  (fs2, r.2, [Event.readEv p, Event.backupEv p (p ++ ".backup"), Event.writeEv p])

/-- `convert_sql_file`: opening a missing file fails (the exception
propagates, modelled as `none`); otherwise run the pipeline. -/
def convert_sql_file (fs : FS) (p : String) : Option (FS × Nat × List Event) :=
  (getFile fs p).map (convertOn fs p)

/-- The five configured file names, in the source's order. -/
def sqlFiles : List String :=
  [ "04-data-users-01.sql",
    "05-data-regions-01.sql",
    "06-data-categories-01.sql",
    "09-data-keywords-01.sql",
    "11-data-schedules-01.sql" ]

/-- The loop of `main` (lines 119–125): for each name, if the file exists
convert it and add its count to the running total, else record a warning
and continue. Returns the final filesystem, the total, the processed
`(name, count)` pairs and the warned-about names, each in list order. -/
def runFiles : List String → FS → FS × Nat × List (String × Nat) × List String
  | [], fs => (fs, 0, [], [])
  | n :: rest, fs =>
    match getFile fs n with
    | some content =>
      let r := convertOn fs n content
      let out := runFiles rest r.1
      (out.1, r.2.1 + out.2.1, (n, r.2.1) :: out.2.2.1, out.2.2.2)
    | none =>
      let out := runFiles rest fs
      (out.1, out.2.1, out.2.2.1, n :: out.2.2.2)

/-- `main`: abort (returning `none`) if the base directory is missing,
otherwise process the configured file list. -/
def mainRun (dirExists : Bool) (fs : FS) :
    Option (FS × Nat × List (String × Nat) × List String) :=
  if dirExists then some (runFiles sqlFiles fs) else none

/-- The trace contains the event `e`. -/
def hasEvent (e : Event) : List Event → Bool
  | [] => false
  | x :: rest => decide (x = e) || hasEvent e rest

/-- `e1` occurs strictly before some occurrence of `e2` in the trace. -/
def eventBefore (e1 e2 : Event) : List Event → Bool
  | [] => false
  | e :: rest => (decide (e = e1) && hasEvent e2 rest) || eventBefore e1 e2 rest

/-- Shorthand for string literals as character lists. -/
def lit (s : String) : List Char := s.toList

/-- Spec-side restatement of the output contract of the File Renamer
(§4.2/§4.3 of the spec): the number of mapping pairs, taken in order,
for which at least one boundary-delimited occurrence of the source token
is found in the content as it stood before that pair's substitution was
applied. Used to compare the code's returned count against the spec's
words. -/
def specHitCount : List (String × String) → List Char → Nat
  | [], _ => 0
  | p :: rest, content =>
    match p.1.toList with
    | [] => specHitCount rest content
    | k0 :: ks =>
      if occurs (k0 :: ks) false content then
        1 + specHitCount rest (subst k0 ks p.2.toList false content)
      else specHitCount rest content

/-- The shape every pair of the static table has: a nonempty all-ASCII
identifier key containing an uppercase letter, and a nonempty all-ASCII
identifier target containing none. -/
def goodPair (p : String × String) : Bool :=
  !p.1.toList.isEmpty && p.1.toList.all wordChar && p.1.toList.any Char.isUpper &&
  !p.2.toList.isEmpty && p.2.toList.all wordChar && !(p.2.toList.any Char.isUpper)

/-- Whether the last character of `u` is an identifier character; `pw` is
the answer for the empty list (the state of the scan entering `u`). -/
def lastWord : Bool → List Char → Bool
  | pw, [] => pw
  | _, c :: rest => lastWord (wordChar c) rest

/-- A document made of the segments of `segs` interleaved with the token
`key`: `u0 ++ key ++ u1 ++ key ++ … ++ un`. -/
def docOf (key : List Char) : List (List Char) → List Char
  | [] => []
  | [u] => u
  | u :: rest => u ++ key ++ docOf key rest

/-- Boundary conditions making every interleaved occurrence in `docOf`
isolated: each segment before a token ends in a non-identifier character
(or is empty at the very start, where `pw` covers it), and each segment
after a token starts with a non-identifier character. -/
def chainOk : Bool → List (List Char) → Bool
  | _, [] => true
  | _, [_] => true
  | pw, u :: next :: rest =>
    !lastWord pw u &&
    (match next with | [] => false | d :: _ => !wordChar d) &&
    chainOk true (next :: rest)

/-! ## Basic lemmas about the substitution scanner -/

/-- The skip state of `substS` just drops characters. -/
theorem substS_drop (k0 : Char) (ks t : List Char) :
    ∀ (skip : Nat) (pw : Bool) (s : List Char),
      substS k0 ks t skip pw s = substS k0 ks t 0 pw (s.drop skip)
  | 0, _, s => by rw [List.drop_zero]
  | skip + 1, pw, [] => by simp [substS]
  | skip + 1, pw, c :: rest => by
    rw [show substS k0 ks t (skip + 1) pw (c :: rest) = substS k0 ks t skip pw rest from rfl,
      substS_drop k0 ks t skip pw rest]
    rfl

/-- The head-unfolding of `subst`, mirroring one step of the regex scan. -/
theorem subst_cons (k0 : Char) (ks t : List Char) (pw : Bool) (c : Char) (rest : List Char) :
    subst k0 ks t pw (c :: rest) =
      if matchAt (k0 :: ks) (c :: rest) pw then
        t ++ subst k0 ks t (wordChar (ks.getLastD k0)) (rest.drop ks.length)
      else c :: subst k0 ks t (wordChar c) rest := by
  show substS k0 ks t 0 pw (c :: rest) = _
  cases h : matchAt (k0 :: ks) (c :: rest) pw with
  | false => simp [substS, subst, h]
  | true => simp [substS, subst, h, substS_drop]

/-- `subst` on the empty text. -/
theorem subst_nil (k0 : Char) (ks t : List Char) (pw : Bool) : subst k0 ks t pw [] = [] := rfl

/-- If the pattern does not occur, the substitution is the identity
(`re.sub` finds nothing to replace). -/
theorem subst_id (k0 : Char) (ks t : List Char) :
    ∀ (pw : Bool) (s : List Char), occurs (k0 :: ks) pw s = false → subst k0 ks t pw s = s
  | _, [], _ => rfl
  | pw, c :: rest, h => by
    rw [occurs] at h
    simp only [Bool.or_eq_false_iff] at h
    rw [subst_cons, h.1, if_neg (by simp), subst_id k0 ks t (wordChar c) rest h.2]

/-! ## Filesystem lemmas -/

/-- Reading back a just-written file. -/
theorem getFile_setFile_self :
    ∀ (fs : FS) (p : String) (c : List Char), getFile (setFile fs p c) p = some c
  | [], p, c => by simp [setFile, getFile]
  | (n, d) :: rest, p, c => by
    by_cases h : n = p
    · simp [setFile, getFile, h]
    · simp [setFile, getFile, h, getFile_setFile_self rest p c]

/-- Writing one file does not change any other file. -/
theorem getFile_setFile_ne :
    ∀ (fs : FS) {p q : String} (c : List Char), p ≠ q →
      getFile (setFile fs p c) q = getFile fs q
  | [], p, q, c, h => by simp [setFile, getFile, h]
  | (n, d) :: rest, p, q, c, h => by
    by_cases hn : n = p
    · subst hn; simp [setFile, getFile, h]
    · simp only [setFile, if_neg hn]
      by_cases hq : n = q
      · simp [getFile, hq]
      · simp [getFile, hq, getFile_setFile_ne rest c h]

/-- A backup path never collides with the path it backs up. -/
theorem backup_path_ne (p : String) : p ++ ".backup" ≠ p := by
  intro h
  have hl := congrArg String.length h
  have h7 : (".backup" : String).length = 7 := rfl
  rw [String.length_append, h7] at hl
  omega

/-! ## C1: end-to-end scenario -/

set_option maxRecDepth 100000 in
/-- C1: on a file holding the `INSERT INTO users …` statement of the
spec's end-to-end scenario, `convert_sql_file` leaves the file with the
three column names converted, creates a backup holding the original
content, and returns a replacement count of 3. -/
theorem c1_end_to_end :
    (convert_sql_file
        [("04-data-users-01.sql",
          lit "INSERT INTO users (userId, createdAt, isVerified) VALUES (1, '2024-01-01', true);")]
        "04-data-users-01.sql").map
      (fun r => (getFile r.1 "04-data-users-01.sql",
                 getFile r.1 "04-data-users-01.sql.backup", r.2.1)) =
    some (some (lit "INSERT INTO users (user_id, created_at, is_verified) VALUES (1, '2024-01-01', true);"),
          some (lit "INSERT INTO users (userId, createdAt, isVerified) VALUES (1, '2024-01-01', true);"),
          3) := by
  decide

/-! ## C2: ordering of the per-file pipeline steps -/

/-- C2 counterexample: in the code the file is read (lines 24–25) before
the backup copy is made (line 29). On a concrete run the trace is
read–backup–write, the backup event does not precede the read event, and
the read event does precede the backup event — refuting the claim that
the backup is created before the content is read. -/
theorem c2_backup_order_counterexample :
    convert_sql_file [("a.sql", [])] "a.sql" =
      some ([("a.sql", []), ("a.sql.backup", [])], 0,
        [Event.readEv "a.sql", Event.backupEv "a.sql" "a.sql.backup", Event.writeEv "a.sql"]) ∧
    eventBefore (Event.backupEv "a.sql" "a.sql.backup") (Event.readEv "a.sql")
      [Event.readEv "a.sql", Event.backupEv "a.sql" "a.sql.backup", Event.writeEv "a.sql"] = false ∧
    eventBefore (Event.readEv "a.sql") (Event.backupEv "a.sql" "a.sql.backup")
      [Event.readEv "a.sql", Event.backupEv "a.sql" "a.sql.backup", Event.writeEv "a.sql"] = true := by
  decide

/-- C2 amended: the pipeline reads the file first, then creates the
backup, and only then mutates the original file, so the backup is
complete — and holds the original content — before any mutation is
attempted. -/
theorem c2_backup_after_read_before_write :
    ∀ (fs : FS) (p : String) (fs' : FS) (n : Nat) (tr : List Event),
      convert_sql_file fs p = some (fs', n, tr) →
      tr = [Event.readEv p, Event.backupEv p (p ++ ".backup"), Event.writeEv p] ∧
      eventBefore (Event.backupEv p (p ++ ".backup")) (Event.writeEv p) tr = true ∧
      getFile fs' (p ++ ".backup") = getFile fs p := by
  intro fs p fs' n tr h
  cases hg : getFile fs p with
  | none => simp [convert_sql_file, hg] at h
  | some content =>
    simp only [convert_sql_file, hg, Option.map_some', Option.some_inj, convertOn,
      Prod.mk.injEq] at h
    obtain ⟨hfs, hn, htr⟩ := h
    refine ⟨htr.symm, ?_, ?_⟩
    · rw [htr.symm]
      simp [eventBefore, hasEvent]
    · rw [← hfs, getFile_setFile_ne _ _ (fun hq => backup_path_ne p hq.symm),
        getFile_setFile_self]

/-- Witness for the amended C2 theorem on a concrete run. -/
theorem c2_amended_witness :
    [Event.readEv "a.sql", Event.backupEv "a.sql" "a.sql.backup", Event.writeEv "a.sql"] =
      [Event.readEv "a.sql", Event.backupEv "a.sql" ("a.sql" ++ ".backup"), Event.writeEv "a.sql"] ∧
    eventBefore (Event.backupEv "a.sql" ("a.sql" ++ ".backup")) (Event.writeEv "a.sql")
      [Event.readEv "a.sql", Event.backupEv "a.sql" "a.sql.backup", Event.writeEv "a.sql"] = true ∧
    getFile [("a.sql", lit "x"), ("a.sql.backup", lit "x")] ("a.sql" ++ ".backup") =
      getFile [("a.sql", lit "x")] "a.sql" :=
  c2_backup_after_read_before_write [("a.sql", lit "x")] "a.sql"
    [("a.sql", lit "x"), ("a.sql.backup", lit "x")] 0
    [Event.readEv "a.sql", Event.backupEv "a.sql" "a.sql.backup", Event.writeEv "a.sql"]
    (by decide)

/-! ## C7: the identifier case converter -/

/-- Lowercasing a character that is not an uppercase letter is a no-op. -/
theorem lowerChar_id (c : Char) (h : c.isUpper = false) : lowerChar c = c := by
  simp [lowerChar, h]

/-- Mapping `lowerChar` over upper-free text is a no-op. -/
theorem mapLower_id : ∀ (s : List Char), (∀ c ∈ s, c.isUpper = false) → s.map lowerChar = s
  | [], _ => rfl
  | c :: rest, h => by
    rw [List.map_cons, lowerChar_id c (h c (by simp)),
      mapLower_id rest (fun d hd => h d (List.mem_cons_of_mem _ hd))]

/-- Pass 1 is the identity on upper-free text: its pattern requires an
uppercase letter. -/
theorem pass1S_id : ∀ (s : List Char), (∀ c ∈ s, c.isUpper = false) → pass1S 0 s = s
  | [], _ => rfl
  | [c], _ => rfl
  | c1 :: c2 :: rest, h => by
    have h2 : c2.isUpper = false := h c2 (by simp)
    rw [pass1S.eq_def]
    dsimp only
    rw [if_neg (by simp [h2])]
    rw [pass1S_id (c2 :: rest) (fun d hd => h d (List.mem_cons_of_mem _ hd))]

/-- Pass 2 is the identity on upper-free text. -/
theorem pass2_id : ∀ (s : List Char), (∀ c ∈ s, c.isUpper = false) → pass2 s = s
  | [], _ => rfl
  | [c], _ => rfl
  | c1 :: c2 :: rest, h => by
    have h2 : c2.isUpper = false := h c2 (by simp)
    rw [pass2, if_neg (by simp [h2])]
    rw [pass2_id (c2 :: rest) (fun d hd => h d (List.mem_cons_of_mem _ hd))]

/-- C7: `camel_to_snake` maps `createdAt` to `created_at` and
`isVerified` to `is_verified`, and is the identity on any string that
contains no uppercase letter. -/
theorem c7_case_converter :
    camel_to_snake (lit "createdAt") = lit "created_at" ∧
    camel_to_snake (lit "isVerified") = lit "is_verified" ∧
    ∀ s : List Char, (∀ c ∈ s, c.isUpper = false) → camel_to_snake s = s := by
  refine ⟨by decide, by decide, fun s h => ?_⟩
  rw [camel_to_snake, pass1, pass1S_id s h, pass2_id s h, mapLower_id s h]

/-- Witness for C7 on a concrete snake_case string. -/
theorem c7_witness : camel_to_snake (lit "created_at") = lit "created_at" :=
  c7_case_converter.2.2 (lit "created_at") (by decide)

/-! ## C9: the static table agrees with the generic converter -/

set_option maxRecDepth 10000 in
/-- C9: for every pair of the static table, applying the generic
`camel_to_snake` converter to the source token yields exactly the mapped
target token. -/
theorem c9_table_agrees_with_converter :
    ∀ p ∈ column_mappings, camel_to_snake p.1.toList = p.2.toList := by
  decide

/-- Witness for C9 at a concrete table entry. -/
theorem c9_witness : camel_to_snake (lit "delayMs") = lit "delay_ms" :=
  c9_table_agrees_with_converter ("delayMs", "delay_ms") (by decide)

/-! ## C4: word-boundary anchoring rejects partial-identifier matches -/

/-- C4: when a mapped token never occurs as an isolated identifier
(every raw occurrence abuts another identifier character), the
substitution step replaces nothing: generally, a pattern that does not
occur makes `re.sub` the identity, and concretely, `userIdX` is left
alone both in a document where it is the only occurrence (count 0) and
next to an isolated `userId`, which alone is replaced. -/
theorem c4_boundary_anchoring :
    (∀ (k0 : Char) (ks t : List Char) (pw : Bool) (s : List Char),
      occurs (k0 :: ks) pw s = false → subst k0 ks t pw s = s) ∧
    convertContent (lit "SELECT userIdX FROM t;") = (lit "SELECT userIdX FROM t;", 0) ∧
    convertContent (lit "userId userIdX") = (lit "user_id userIdX", 1) := by
  refine ⟨fun k0 ks t pw s h => subst_id k0 ks t pw s h, by decide, by decide⟩

/-- Witness for C4: the `userId` pattern finds no isolated occurrence in
`SELECT userIdX FROM t;`, so the substitution returns it unchanged. -/
theorem c4_witness :
    subst 'u' (lit "serId") (lit "user_id") false (lit "SELECT userIdX FROM t;") =
      lit "SELECT userIdX FROM t;" :=
  c4_boundary_anchoring.1 'u' (lit "serId") (lit "user_id") false
    (lit "SELECT userIdX FROM t;") (by decide)

/-! ## C3: the count is the number of hit pairs, not of occurrences -/

/-- The length of the records list built by the fold equals the
spec-side sequential hit count. -/
theorem foldl_applyPair_len :
    ∀ (ps : List (String × String)) (content : List Char) (acc : List (String × String)),
      (List.foldl applyPair (content, acc) ps).2.length = acc.length + specHitCount ps content
  | [], content, acc => by simp [specHitCount]
  | p :: rest, content, acc => by
    rw [List.foldl_cons, specHitCount]
    cases hk : p.1.toList with
    | nil => simp only [applyPair, hk]; exact foldl_applyPair_len rest content acc
    | cons k0 ks =>
      cases ho : occurs (k0 :: ks) false content with
      | false =>
        simp only [applyPair, hk, ho, Bool.false_eq_true, if_false]
        exact foldl_applyPair_len rest content acc
      | true =>
        simp only [applyPair, hk, ho, if_true]
        rw [foldl_applyPair_len rest _ (acc ++ [p])]
        simp only [List.length_append, List.length_cons, List.length_nil]
        omega

set_option maxRecDepth 40000 in
/-- C3: the value returned by the File Renamer equals the number of
mapping pairs whose token was found at least once in the content as it
stood before that pair's substitution; a pair occurring many times still
contributes exactly 1, as the three-occurrence document shows. -/
theorem c3_count_is_hit_pairs :
    (∀ content : List Char, (convertContent content).2 = specHitCount column_mappings content) ∧
    convertContent (lit "userId userId userId") = (lit "user_id user_id user_id", 1) := by
  refine ⟨fun content => ?_, by decide⟩
  simp only [convertContent]
  rw [foldl_applyPair_len column_mappings content []]
  simp

/-! ## C6: idempotence on key-free content -/

/-- If no mapped key occurs in the content, every pair of the fold is
skipped. -/
theorem foldl_applyPair_skip :
    ∀ (ps : List (String × String)) (content : List Char) (acc : List (String × String)),
      (∀ p ∈ ps, occurs p.1.toList false content = false) →
      List.foldl applyPair (content, acc) ps = (content, acc)
  | [], _, _, _ => rfl
  | p :: rest, content, acc, h => by
    rw [List.foldl_cons]
    have hp := h p (by simp)
    cases hk : p.1.toList with
    | nil =>
      simp only [applyPair, hk]
      exact foldl_applyPair_skip rest content acc (fun q hq => h q (List.mem_cons_of_mem _ hq))
    | cons k0 ks =>
      rw [hk] at hp
      simp only [applyPair, hk, hp, Bool.false_eq_true, if_false]
      exact foldl_applyPair_skip rest content acc (fun q hq => h q (List.mem_cons_of_mem _ hq))

/-! ## C8: a missing configured file is skipped, the rest are processed -/

/-- Writing any file preserves the existence of every file. -/
theorem setFile_preserves_isSome :
    ∀ (fs : FS) (p : String) (c : List Char) (q : String),
      (getFile fs q).isSome → (getFile (setFile fs p c) q).isSome := by
  intro fs p c q h
  by_cases hpq : p = q
  · subst hpq; rw [getFile_setFile_self]; rfl
  · rwa [getFile_setFile_ne _ _ hpq]

/-- Converting file `n` touches only `n` and its backup path. -/
theorem convertOn_preserves (fs : FS) (n q : String) (content : List Char)
    (h1 : q ≠ n) (h2 : q ≠ n ++ ".backup") :
    getFile (convertOn fs n content).1 q = getFile fs q := by
  simp only [convertOn]
  rw [getFile_setFile_ne _ _ (fun h => h1 h.symm),
    getFile_setFile_ne _ _ (fun h => h2 h.symm)]

/-- The total accumulated by the driver loop is the sum of the counts of
the files it actually processed. -/
theorem runFiles_total_eq_sum :
    ∀ (names : List String) (fs : FS),
      (runFiles names fs).2.1 = ((runFiles names fs).2.2.1.map Prod.snd).sum
  | [], _ => rfl
  | n :: rest, fs => by
    cases hg : getFile fs n with
    | some content =>
      simp only [runFiles, hg, List.map_cons, List.sum_cons]
      rw [runFiles_total_eq_sum rest]
    | none =>
      simp only [runFiles, hg]
      rw [runFiles_total_eq_sum rest]

/-- When every configured file exists, the driver warns about nothing
and processes all of them in list order. -/
theorem runFiles_all_present :
    ∀ (names : List String) (fs : FS),
      (∀ n ∈ names, (getFile fs n).isSome) →
      (runFiles names fs).2.2.2 = [] ∧ (runFiles names fs).2.2.1.map Prod.fst = names
  | [], _, _ => ⟨rfl, rfl⟩
  | n :: rest, fs, h => by
    cases hg : getFile fs n with
    | none => have := h n (by simp); rw [hg] at this; exact absurd this (by simp)
    | some content =>
      simp only [runFiles, hg, List.map_cons]
      have hrest : ∀ q ∈ rest, (getFile (convertOn fs n content).1 q).isSome := by
        intro q hq
        simp only [convertOn]
        exact setFile_preserves_isSome _ _ _ _ (setFile_preserves_isSome _ _ _ _
          (h q (List.mem_cons_of_mem _ hq)))
      obtain ⟨hw, hp⟩ := runFiles_all_present rest _ hrest
      exact ⟨hw, by rw [hp]⟩

/-- When exactly one configured file is missing (and no configured name
is the backup path of another), the driver warns exactly about it and
processes all of the other files in list order. -/
theorem runFiles_one_missing :
    ∀ (names : List String) (fs : FS) (m : String),
      names.Nodup → m ∈ names → getFile fs m = none →
      (∀ n ∈ names, n ≠ m → (getFile fs n).isSome) →
      (∀ b ∈ names, m ≠ b ++ ".backup") →
      (runFiles names fs).2.2.2 = [m] ∧
      (runFiles names fs).2.2.1.map Prod.fst = names.erase m
  | [], _, m, _, hm, _, _, _ => absurd hm (by simp)
  | n :: rest, fs, m, hnd, hm, hmiss, hpres, hback => by
    by_cases hnm : n = m
    · subst hnm
      simp only [runFiles, hmiss, List.erase_cons_head]
      have hrest : ∀ q ∈ rest, (getFile fs q).isSome := by
        intro q hq
        refine hpres q (List.mem_cons_of_mem _ hq) ?_
        intro hqn
        subst hqn
        exact (List.nodup_cons.mp hnd).1 hq
      obtain ⟨hw, hp⟩ := runFiles_all_present rest fs hrest
      exact ⟨by rw [hw], by rw [hp]⟩
    · have hmr : m ∈ rest := by
        cases List.mem_cons.mp hm with
        | inl h => exact absurd h.symm hnm
        | inr h => exact h
      have hn : (getFile fs n).isSome := hpres n (by simp) hnm
      cases hg : getFile fs n with
      | none => rw [hg] at hn; exact absurd hn (by simp)
      | some content =>
        simp only [runFiles, hg, List.map_cons]
        have hmiss2 : getFile (convertOn fs n content).1 m = none := by
          rw [convertOn_preserves fs n m content (fun h => hnm h.symm)
            (hback n (by simp)), hmiss]
        have hpres2 : ∀ q ∈ rest, q ≠ m → (getFile (convertOn fs n content).1 q).isSome := by
          intro q hq hqm
          simp only [convertOn]
          exact setFile_preserves_isSome _ _ _ _ (setFile_preserves_isSome _ _ _ _
            (hpres q (List.mem_cons_of_mem _ hq) hqm))
        obtain ⟨hw, hp⟩ := runFiles_one_missing rest _ m (List.nodup_cons.mp hnd).2 hmr
          hmiss2 hpres2 (fun b hb => hback b (List.mem_cons_of_mem _ hb))
        refine ⟨by rw [hw], ?_⟩
        rw [hp, List.erase_cons_tail]
        simp [hnm]

/-- No configured file name is the backup path of another configured
file name. -/
theorem sqlFiles_no_backup_collision :
    ∀ a ∈ sqlFiles, ∀ b ∈ sqlFiles, a ≠ b ++ ".backup" := by
  decide

/-- C8: if the base directory exists but one configured file is missing,
the run does not abort: it warns exactly about the missing file,
processes every other configured file in list order, and reports a total
equal to the sum of the per-file counts of the processed files (so the
missing file contributes 0). -/
theorem c8_missing_file_skipped :
    ∀ (fs : FS) (m : String),
      m ∈ sqlFiles → getFile fs m = none →
      (∀ n ∈ sqlFiles, n ≠ m → (getFile fs n).isSome) →
      mainRun true fs = some (runFiles sqlFiles fs) ∧
      (runFiles sqlFiles fs).2.2.2 = [m] ∧
      (runFiles sqlFiles fs).2.2.1.map Prod.fst = sqlFiles.erase m ∧
      (runFiles sqlFiles fs).2.1 = ((runFiles sqlFiles fs).2.2.1.map Prod.snd).sum := by
  intro fs m hm hmiss hpres
  obtain ⟨hw, hp⟩ := runFiles_one_missing sqlFiles fs m (by decide) hm hmiss hpres
    (fun b hb => sqlFiles_no_backup_collision m hm b hb)
  exact ⟨rfl, hw, hp, runFiles_total_eq_sum sqlFiles fs⟩

set_option maxRecDepth 40000 in
/-- Witness for C8: a concrete filesystem in which the first configured
file is missing and the other four are empty files. -/
theorem c8_witness :
    mainRun true
        [("05-data-regions-01.sql", []), ("06-data-categories-01.sql", []),
         ("09-data-keywords-01.sql", []), ("11-data-schedules-01.sql", [])] =
      some (runFiles sqlFiles
        [("05-data-regions-01.sql", []), ("06-data-categories-01.sql", []),
         ("09-data-keywords-01.sql", []), ("11-data-schedules-01.sql", [])]) ∧
    (runFiles sqlFiles
        [("05-data-regions-01.sql", []), ("06-data-categories-01.sql", []),
         ("09-data-keywords-01.sql", []), ("11-data-schedules-01.sql", [])]).2.2.2 =
      ["04-data-users-01.sql"] ∧
    (runFiles sqlFiles
        [("05-data-regions-01.sql", []), ("06-data-categories-01.sql", []),
         ("09-data-keywords-01.sql", []), ("11-data-schedules-01.sql", [])]).2.2.1.map Prod.fst =
      sqlFiles.erase "04-data-users-01.sql" ∧
    (runFiles sqlFiles
        [("05-data-regions-01.sql", []), ("06-data-categories-01.sql", []),
         ("09-data-keywords-01.sql", []), ("11-data-schedules-01.sql", [])]).2.1 =
      ((runFiles sqlFiles
        [("05-data-regions-01.sql", []), ("06-data-categories-01.sql", []),
         ("09-data-keywords-01.sql", []), ("11-data-schedules-01.sql", [])]).2.2.1.map
          Prod.snd).sum :=
  c8_missing_file_skipped
    [("05-data-regions-01.sql", []), ("06-data-categories-01.sql", []),
     ("09-data-keywords-01.sql", []), ("11-data-schedules-01.sql", [])]
    "04-data-users-01.sql" (by decide) (by decide) (by decide)

/-! ## Machinery: substitution never leaves or creates isolated keys -/

/-- A word-boundary match is impossible right after an identifier
character. -/
theorem matchAt_true (k s : List Char) : matchAt k s true = false := by
  simp [matchAt]

/-- The last character of an all-identifier key is an identifier
character. -/
theorem getLastD_wordChar (k0 : Char) (ks : List Char)
    (h : (k0 :: ks).all wordChar = true) : wordChar (ks.getLastD k0) = true :=
  List.all_eq_true.mp h _ (List.getLastD_mem_cons ks k0)

/-- A key that contains an uppercase letter is never a prefix of a text
made of an uppercase-free block followed by a non-identifier character
(or the end of the text), because the uppercase character of the key can
match neither part. -/
theorem keyPrefixFalse :
    ∀ (k u v : List Char),
      k.all wordChar = true → k.any Char.isUpper = true →
      (∀ c ∈ u, c.isUpper = false) → okAfter v = true →
      k.isPrefixOf (u ++ v) = false
  | [], _, _, _, hup, _, _ => by simp at hup
  | k0 :: ks, [], v, hw, _, _, hv => by
    cases v with
    | nil => rfl
    | cons d vr =>
      have hk0 : wordChar k0 = true := by
        exact List.all_eq_true.mp hw k0 (by simp)
      have hd : wordChar d = false := by
        simpa [okAfter] using hv
      have hne : (k0 == d) = false := by
        refine beq_eq_false_iff_ne.mpr ?_
        intro hEq
        rw [hEq, hd] at hk0
        exact Bool.false_ne_true hk0
      simp [List.isPrefixOf_cons₂, hne]
  | k0 :: ks, a :: u', v, hw, hup, hu, hv => by
    rw [List.cons_append, List.isPrefixOf_cons₂]
    by_cases hka : k0 = a
    · have h0 : k0.isUpper = false := by rw [hka]; exact hu a (by simp)
      have hks : ks.any Char.isUpper = true := by
        rcases List.any_eq_true.mp hup with ⟨x, hx, hxu⟩
        rcases List.mem_cons.mp hx with h | h
        · subst h; rw [h0] at hxu; exact absurd hxu (by simp)
        · exact List.any_eq_true.mpr ⟨x, h, hxu⟩
      rw [keyPrefixFalse ks u' v
        (by rw [List.all_cons, Bool.and_eq_true] at hw; exact hw.2) hks
        (fun c hc => hu c (List.mem_cons_of_mem _ hc)) hv]
      simp
    · have : (k0 == a) = false := beq_eq_false_iff_ne.mpr hka
      simp [this]

/-- Scanning through a nonempty uppercase-free all-identifier block
finds no match of an uppercase-containing key, and exits the block with
the boundary state "previous character is an identifier character". -/
theorem occursAppendRight :
    ∀ (u : List Char), u ≠ [] →
    ∀ (k v : List Char) (pw : Bool),
      k.all wordChar = true → k.any Char.isUpper = true →
      (∀ c ∈ u, c.isUpper = false) → (∀ c ∈ u, wordChar c = true) →
      okAfter v = true →
      occurs k pw (u ++ v) = occurs k true v
  | [], hne, _, _, _, _, _, _, _, _ => absurd rfl hne
  | a :: u', _, k, v, pw, hkw, hku, hu, huw, hv => by
    rw [List.cons_append, occurs]
    have hpre : k.isPrefixOf ((a :: u') ++ v) = false :=
      keyPrefixFalse k (a :: u') v hkw hku hu hv
    rw [List.cons_append] at hpre
    have hm : matchAt k (a :: (u' ++ v)) pw = false := by
      simp [matchAt, hpre]
    rw [hm, Bool.false_or, huw a (by simp)]
    cases u' with
    | nil => rfl
    | cons b u'' =>
      exact occursAppendRight (b :: u'') (by simp) k v true hkw hku
        (fun c hc => hu c (List.mem_cons_of_mem _ hc))
        (fun c hc => huw c (List.mem_cons_of_mem _ hc)) hv

/-- Absence of a match with an arbitrary boundary state implies absence
with the stricter "after an identifier character" state. -/
theorem occursTrueFalse :
    ∀ (s : List Char) (k : List Char) (pw : Bool),
      occurs k pw s = false → occurs k true s = false
  | [], _, _, _ => rfl
  | c :: rest, k, pw, h => by
    rw [occurs] at h ⊢
    simp only [Bool.or_eq_false_iff] at h ⊢
    exact ⟨matchAt_true _ _, h.2⟩

/-- Absence of a match is inherited by suffixes (with the stricter
boundary state). -/
theorem occursDropFalse :
    ∀ (n : Nat) (s k : List Char) (pw : Bool),
      occurs k pw s = false → occurs k true (s.drop n) = false
  | 0, s, k, pw, h => by rw [List.drop_zero]; exact occursTrueFalse s k pw h
  | _ + 1, [], k, pw, h => rfl
  | n + 1, c :: rest, k, pw, h => by
    rw [occurs] at h
    simp only [Bool.or_eq_false_iff] at h
    rw [List.drop_succ_cons]
    exact occursDropFalse n rest k (wordChar c) h.2

/-- Substitution with the "after an identifier character" state leaves
the head character of the text alone, preserving the boundary test. -/
theorem substHeadSafe (k0 : Char) (ks t : List Char) (s : List Char)
    (h : okAfter s = true) : okAfter (subst k0 ks t true s) = true := by
  cases s with
  | nil => rw [subst_nil]; rfl
  | cons d r =>
    rw [subst_cons, matchAt_true, if_neg (by simp)]
    exact h

/-- With the "after an identifier character" state, substitution copies
the text verbatim for as long as an all-identifier probe can compare
against it, so a boundary-anchored prefix test (prefix plus
following-character check) gives the same answer on the substituted text
as on the original. -/
theorem matchThroughSubst :
    ∀ (k : List Char) (k0 : Char) (ks t s : List Char),
      k.all wordChar = true →
      (k.isPrefixOf (subst k0 ks t true s) &&
        okAfter ((subst k0 ks t true s).drop k.length)) =
      (k.isPrefixOf s && okAfter (s.drop k.length))
  | [], k0, ks, t, s, _ => by
    cases s with
    | nil => rw [subst_nil]
    | cons c rest =>
      rw [subst_cons, matchAt_true, if_neg (by simp)]
      simp [okAfter]
  | a :: k', k0, ks, t, [], _ => by rw [subst_nil]
  | a :: k', k0, ks, t, c :: rest, hw => by
    rw [subst_cons, matchAt_true, if_neg (by simp)]
    by_cases hac : a = c
    · have haw : wordChar c = true := by
        rw [← hac]; exact List.all_eq_true.mp hw a (by simp)
      rw [haw]
      simp only [List.isPrefixOf_cons₂, List.length_cons, List.drop_succ_cons]
      have hrec := matchThroughSubst k' k0 ks t rest
        (by rw [List.all_cons, Bool.and_eq_true] at hw; exact hw.2)
      rw [Bool.and_assoc, Bool.and_assoc, hrec]
    · have hne : (a == c) = false := beq_eq_false_iff_ne.mpr hac
      simp [List.isPrefixOf_cons₂, hne]

/-- The boundary-anchored match test at a kept character sees through
the substitution of the rest of the text. -/
theorem matchAtConsSubst (k : List Char) (k0 : Char) (ks t : List Char) (c : Char)
    (rest : List Char) (pw : Bool) (hw : k.all wordChar = true) :
    matchAt k (c :: subst k0 ks t (wordChar c) rest) pw = matchAt k (c :: rest) pw := by
  cases pw with
  | true => rw [matchAt_true, matchAt_true]
  | false =>
    cases k with
    | nil => simp [matchAt, okAfter]
    | cons a k' =>
      by_cases hac : a = c
      · have haw : wordChar c = true := by
          rw [← hac]; exact List.all_eq_true.mp hw a (by simp)
        rw [haw]
        simp only [matchAt, Bool.not_false, Bool.true_and, List.isPrefixOf_cons₂,
          List.length_cons, List.drop_succ_cons, Bool.and_assoc]
        have hrec := matchThroughSubst k' k0 ks t rest
          (by rw [List.all_cons, Bool.and_eq_true] at hw; exact hw.2)
        rw [hrec]
      · have hne : (a == c) = false := beq_eq_false_iff_ne.mpr hac
        simp [matchAt, List.isPrefixOf_cons₂, hne]

/-- Central lemma: substituting an all-identifier key by a nonempty
uppercase-free all-identifier target leaves no isolated occurrence of
any all-identifier uppercase-containing probe `k`, provided `k` either
is the substituted key itself or was already absent. -/
theorem occursSubstFalse :
    ∀ (s : List Char) (pw : Bool) (k : List Char) (k0 : Char) (ks t : List Char),
      k.all wordChar = true → k.any Char.isUpper = true →
      (k0 :: ks).all wordChar = true →
      t ≠ [] → t.all wordChar = true → t.any Char.isUpper = false →
      (k = k0 :: ks ∨ occurs k pw s = false) →
      occurs k pw (subst k0 ks t pw s) = false
  | [], _, _, _, _, _, _, _, _, _, _, _, _ => by rw [subst_nil]; rfl
  | c :: rest, pw, k, k0, ks, t, hkw, hku, hkey, htne, htw, htu, hdisj => by
    rw [subst_cons]
    cases hm : matchAt (k0 :: ks) (c :: rest) pw with
    | true =>
      rw [if_pos rfl, getLastD_wordChar k0 ks hkey]
      have hmp := hm
      simp only [matchAt, Bool.and_eq_true, Bool.not_eq_true'] at hmp
      obtain ⟨⟨hpw, hpre⟩, hafter⟩ := hmp
      rw [List.length_cons, List.drop_succ_cons] at hafter
      rw [hpw]
      have hout : okAfter (subst k0 ks t true (rest.drop ks.length)) = true :=
        substHeadSafe k0 ks t (rest.drop ks.length) hafter
      rw [occursAppendRight t htne k (subst k0 ks t true (rest.drop ks.length)) false
        hkw hku (fun d hd => by simpa using List.any_eq_false.mp htu d hd)
        (fun d hd => List.all_eq_true.mp htw d hd) hout]
      apply occursSubstFalse (rest.drop ks.length) true k k0 ks t hkw hku hkey htne htw htu
      cases hdisj with
      | inl h => exact Or.inl h
      | inr h =>
        right
        have hd := occursDropFalse (ks.length + 1) (c :: rest) k pw h
        rwa [List.drop_succ_cons] at hd
    | false =>
      rw [if_neg (by simp)]
      rw [occurs]
      simp only [Bool.or_eq_false_iff]
      constructor
      · rw [matchAtConsSubst k k0 ks t c rest pw hkw]
        cases hdisj with
        | inl h => rw [h]; exact hm
        | inr h => rw [occurs] at h; exact (Bool.or_eq_false_iff.mp h).1
      · apply occursSubstFalse rest (wordChar c) k k0 ks t hkw hku hkey htne htw htu
        cases hdisj with
        | inl h => exact Or.inl h
        | inr h => right; rw [occurs] at h; exact (Bool.or_eq_false_iff.mp h).2
termination_by s => s.length
decreasing_by
  all_goals
    have h := List.length_drop ks.length rest
    simp only [List.length_cons]
    omega

/-- Unpacking `goodPair`. -/
theorem goodPair_props (p : String × String) (h : goodPair p = true) :
    p.1.toList ≠ [] ∧ p.1.toList.all wordChar = true ∧ p.1.toList.any Char.isUpper = true ∧
    p.2.toList ≠ [] ∧ p.2.toList.all wordChar = true ∧ p.2.toList.any Char.isUpper = false := by
  simp only [goodPair, Bool.and_eq_true, Bool.not_eq_true'] at h
  obtain ⟨⟨⟨⟨⟨h1, h2⟩, h3⟩, h4⟩, h5⟩, h6⟩ := h
  refine ⟨?_, h2, h3, ?_, h5, h6⟩
  · intro hnil; rw [hnil] at h1; exact absurd h1 (by simp)
  · intro hnil; rw [hnil] at h4; exact absurd h4 (by simp)

/-- Every pair of the static table is well-shaped. -/
theorem column_mappings_good : ∀ p ∈ column_mappings, goodPair p = true := by decide

/-- Once a well-shaped probe key is absent, the remaining substitutions
of the fold can never reintroduce it. -/
theorem foldPreservesAbsent :
    ∀ (ps : List (String × String)) (acc : List Char × List (String × String)) (k : List Char),
      (∀ p ∈ ps, goodPair p = true) →
      k.all wordChar = true → k.any Char.isUpper = true →
      occurs k false acc.1 = false →
      occurs k false (List.foldl applyPair acc ps).1 = false
  | [], _, _, _, _, _, h => by simpa using h
  | p :: rest, acc, k, hg, hkw, hku, h => by
    rw [List.foldl_cons]
    apply foldPreservesAbsent rest _ k (fun q hq => hg q (List.mem_cons_of_mem _ hq)) hkw hku
    have hgp := goodPair_props p (hg p (by simp))
    cases hk : p.1.toList with
    | nil => exact absurd hk hgp.1
    | cons k0 ks =>
      rw [hk] at hgp
      simp only [applyPair, hk]
      cases ho : occurs (k0 :: ks) false acc.1 with
      | false => simpa using h
      | true =>
        simp only [if_pos rfl]
        exact occursSubstFalse acc.1 false k k0 ks p.2.toList hkw hku hgp.2.1
          hgp.2.2.2.1 hgp.2.2.2.2.1 hgp.2.2.2.2.2 (Or.inr h)

/-- After the whole fold, no key of a well-shaped pair list occurs in
the resulting content. -/
theorem foldKeysAbsent :
    ∀ (ps : List (String × String)) (acc : List Char × List (String × String)),
      (∀ p ∈ ps, goodPair p = true) →
      ∀ p ∈ ps, occurs p.1.toList false (List.foldl applyPair acc ps).1 = false
  | [], _, _, p, hp => absurd hp (by simp)
  | q :: rest, acc, hg, p, hp => by
    rw [List.foldl_cons]
    rcases List.mem_cons.mp hp with hpq | hpr
    · subst hpq
      have hgp := goodPair_props p (hg p (by simp))
      apply foldPreservesAbsent rest _ p.1.toList
        (fun r hr => hg r (List.mem_cons_of_mem _ hr)) hgp.2.1 hgp.2.2.1
      cases hk : p.1.toList with
      | nil => exact absurd hk hgp.1
      | cons k0 ks =>
        rw [hk] at hgp
        simp only [applyPair, hk]
        cases ho : occurs (k0 :: ks) false acc.1 with
        | false => simpa using ho
        | true =>
          simp only [if_pos rfl]
          exact occursSubstFalse acc.1 false (k0 :: ks) k0 ks p.2.toList hgp.2.1 hgp.2.2.1
            hgp.2.1 hgp.2.2.2.1 hgp.2.2.2.2.1 hgp.2.2.2.2.2 (Or.inl rfl)
    · exact foldKeysAbsent rest _ (fun r hr => hg r (List.mem_cons_of_mem _ hr)) p hpr

/-- C10: after the substitution step completes on any input content, no
mapped source key occurs as an isolated identifier token in the result:
every key contains an uppercase letter while every target is free of
them, so no replacement can reintroduce any key. -/
theorem c10_converted_content_key_free :
    ∀ (content : List Char), ∀ p ∈ column_mappings,
      occurs p.1.toList false (convertContent content).1 = false := by
  intro content p hp
  simp only [convertContent]
  exact foldKeysAbsent column_mappings (content, []) column_mappings_good p hp

/-- Witness for C10 at a concrete content and table entry. -/
theorem c10_witness :
    occurs (lit "userId") false (convertContent (lit "a userId b")).1 = false :=
  c10_converted_content_key_free (lit "a userId b") ("userId", "user_id") (by decide)

/-- C6: on content in which no mapped key occurs as an isolated token
(e.g. an already-converted file), the File Renamer reports zero
replacements and returns the content unchanged; in particular a second
run on any just-converted content reports 0 and changes nothing. -/
theorem c6_idempotent_on_converted :
    (∀ content : List Char,
      (∀ p ∈ column_mappings, occurs p.1.toList false content = false) →
      convertContent content = (content, 0)) ∧
    ∀ content : List Char,
      convertContent (convertContent content).1 = ((convertContent content).1, 0) := by
  have part1 : ∀ content : List Char,
      (∀ p ∈ column_mappings, occurs p.1.toList false content = false) →
      convertContent content = (content, 0) := by
    intro content h
    simp only [convertContent]
    rw [foldl_applyPair_skip column_mappings content [] h]
    rfl
  refine ⟨part1, fun content => part1 _ ?_⟩
  intro p hp
  simp only [convertContent]
  exact foldKeysAbsent column_mappings (content, []) column_mappings_good p hp

/-- Witness for C6 on a concrete already-converted document. -/
theorem c6_witness :
    convertContent (lit "INSERT INTO users (user_id, created_at, is_verified);") =
      (lit "INSERT INTO users (user_id, created_at, is_verified);", 0) :=
  c6_idempotent_on_converted.1
    (lit "INSERT INTO users (user_id, created_at, is_verified);") (by decide)

/-! ## Machinery for C5: substitution on documents with isolated tokens -/

/-- For a nonempty list the entering state is irrelevant to `lastWord`. -/
theorem lastWord_indep : ∀ (u : List Char) (x y : Bool), u ≠ [] → lastWord x u = lastWord y u
  | [], _, _, h => absurd rfl h
  | _ :: _, _, _, _ => rfl

/-- Any list is a prefix of itself followed by anything. -/
theorem isPrefixOf_append_self : ∀ (l v : List Char), l.isPrefixOf (l ++ v) = true
  | [], _ => by simp
  | a :: l', v => by
    rw [List.cons_append, List.isPrefixOf_cons₂, isPrefixOf_append_self l' v]
    simp

/-- An all-identifier probe cannot see past a block that ends in a
non-identifier character into a region that starts with an identifier
character: the boundary-anchored prefix test on the block followed by
such a region equals the test on the block alone. -/
theorem boundedProbe :
    ∀ (k u w : List Char),
      k.all wordChar = true → lastWord true u = false → okAfter w = false →
      (k.isPrefixOf (u ++ w) && okAfter ((u ++ w).drop k.length)) =
      (k.isPrefixOf u && okAfter (u.drop k.length))
  | k, [], w, _, hu, _ => by exact absurd hu (by simp [lastWord])
  | [], c :: u', w, _, _, _ => by
    simp [okAfter, List.cons_append]
  | a :: k', [c], w, hkw, hu, hw => by
    have hc : wordChar c = false := hu
    have ha : wordChar a = true := List.all_eq_true.mp hkw a (by simp)
    have hne : (a == c) = false := by
      refine beq_eq_false_iff_ne.mpr ?_
      intro h; rw [h, hc] at ha; exact Bool.false_ne_true ha
    simp [List.cons_append, List.isPrefixOf_cons₂, hne]
  | a :: k', c :: d :: u', w, hkw, hu, hw => by
    rw [List.cons_append, List.isPrefixOf_cons₂, List.isPrefixOf_cons₂]
    by_cases hac : a = c
    · have heq : (a == c) = true := beq_iff_eq.mpr hac
      rw [heq]
      simp only [Bool.true_and, List.length_cons, List.drop_succ_cons]
      exact boundedProbe k' (d :: u') w
        (by rw [List.all_cons, Bool.and_eq_true] at hkw; exact hkw.2)
        (by exact hu) hw
    · have hne : (a == c) = false := beq_eq_false_iff_ne.mpr hac
      simp [hne]

/-- `matchAt` version of `boundedProbe`. -/
theorem matchAtBounded (k u w : List Char) (pw : Bool)
    (hkw : k.all wordChar = true) (hu : lastWord true u = false)
    (hw : okAfter w = false) :
    matchAt k (u ++ w) pw = matchAt k u pw := by
  cases pw with
  | true => rw [matchAt_true, matchAt_true]
  | false =>
    simp only [matchAt, Bool.not_false, Bool.true_and]
    exact boundedProbe k u w hkw hu hw

/-- Substituting through one isolated occurrence: if the key does not
occur in the block `u`, whose last character (or the entering state) is
not an identifier character, and the following region `v` starts at a
boundary, then the scan copies `u`, replaces the occurrence, and
continues in `v` with the after-identifier state. -/
theorem substGlue :
    ∀ (u : List Char) (pw : Bool) (k0 : Char) (ks t v : List Char),
      (k0 :: ks).all wordChar = true →
      lastWord pw u = false →
      occurs (k0 :: ks) pw u = false →
      okAfter v = true →
      subst k0 ks t pw (u ++ (k0 :: ks) ++ v) = u ++ t ++ subst k0 ks t true v
  | [], pw, k0, ks, t, v, hkw, hlast, _, hv => by
    have hpw : pw = false := hlast
    subst hpw
    rw [List.nil_append, List.nil_append, List.cons_append, subst_cons]
    have hm : matchAt (k0 :: ks) (k0 :: (ks ++ v)) false = true := by
      simp only [matchAt, Bool.not_false, Bool.true_and]
      rw [show k0 :: (ks ++ v) = (k0 :: ks) ++ v from rfl,
        isPrefixOf_append_self, List.drop_left]
      rw [hv]
      rfl
    rw [if_pos hm, getLastD_wordChar k0 ks hkw, List.drop_left]
  | c :: u', pw, k0, ks, t, v, hkw, hlast, hocc, hv => by
    rw [List.append_assoc, List.cons_append, subst_cons]
    have hm : matchAt (k0 :: ks) ((c :: u') ++ ((k0 :: ks) ++ v)) pw =
        matchAt (k0 :: ks) (c :: u') pw := by
      refine matchAtBounded (k0 :: ks) (c :: u') ((k0 :: ks) ++ v) pw hkw ?_ ?_
      · exact hlast
      · have hk0 : wordChar k0 = true := List.all_eq_true.mp hkw k0 (by simp)
        rw [List.cons_append]
        simp [okAfter, hk0]
    rw [List.cons_append] at hm
    rw [hm]
    rw [occurs] at hocc
    simp only [Bool.or_eq_false_iff] at hocc
    rw [hocc.1, if_neg (by simp)]
    have hrec := substGlue u' (wordChar c) k0 ks t v hkw hlast hocc.2 hv
    rw [List.append_assoc] at hrec
    rw [hrec, List.cons_append, List.cons_append]

/-- An isolated occurrence is found by the search. -/
theorem occursGlue :
    ∀ (u : List Char) (pw : Bool) (k0 : Char) (ks v : List Char),
      (k0 :: ks).all wordChar = true →
      lastWord pw u = false →
      okAfter v = true →
      occurs (k0 :: ks) pw (u ++ (k0 :: ks) ++ v) = true
  | [], pw, k0, ks, v, hkw, hlast, hv => by
    have hpw : pw = false := hlast
    subst hpw
    rw [List.nil_append, List.cons_append, occurs]
    have hm : matchAt (k0 :: ks) (k0 :: (ks ++ v)) false = true := by
      simp only [matchAt, Bool.not_false, Bool.true_and]
      rw [show k0 :: (ks ++ v) = (k0 :: ks) ++ v from rfl,
        isPrefixOf_append_self, List.drop_left]
      rw [hv]
      rfl
    rw [hm, Bool.true_or]
  | c :: u', pw, k0, ks, v, hkw, hlast, hv => by
    rw [List.append_assoc, List.cons_append, occurs]
    have hrec := occursGlue u' (wordChar c) k0 ks v hkw hlast hv
    rw [List.append_assoc] at hrec
    rw [hrec, Bool.or_true]

/-- The head boundary of a segment document whose first segment starts
with a character `d`. -/
theorem okAfter_docOf (key : List Char) (d : Char) (n' : List Char) :
    ∀ (rest : List (List Char)), okAfter (docOf key ((d :: n') :: rest)) = !wordChar d
  | [] => rfl
  | _ :: _ => rfl

/-- Unfolding of `docOf` on two or more segments. -/
theorem docOf_cons₂ (key u next : List Char) (rest : List (List Char)) :
    docOf key (u :: next :: rest) = u ++ key ++ docOf key (next :: rest) := rfl

/-- Substituting a segment document replaces every interleaved
occurrence and nothing else: the result is the same document with the
target in place of the key. -/
theorem substDocOf :
    ∀ (segs : List (List Char)) (pw : Bool) (k0 : Char) (ks t : List Char),
      (k0 :: ks).all wordChar = true →
      (∀ u ∈ segs, occurs (k0 :: ks) false u = false) →
      chainOk pw segs = true →
      subst k0 ks t pw (docOf (k0 :: ks) segs) = docOf t segs
  | [], pw, k0, ks, t, _, _, _ => by rw [docOf, subst_nil, docOf]
  | [u], pw, k0, ks, t, _, hfree, _ => by
    rw [docOf, docOf]
    apply subst_id
    cases pw with
    | false => exact hfree u (by simp)
    | true => exact occursTrueFalse u (k0 :: ks) false (hfree u (by simp))
  | u :: next :: rest, pw, k0, ks, t, hkw, hfree, hchain => by
    rw [docOf_cons₂, docOf_cons₂]
    simp only [chainOk, Bool.and_eq_true, Bool.not_eq_true'] at hchain
    obtain ⟨⟨hlast, hhead⟩, hrest⟩ := hchain
    obtain ⟨d, n', hnext⟩ : ∃ d n', next = d :: n' := by
      cases hn : next with
      | nil => rw [hn] at hhead; exact absurd hhead (by simp)
      | cons d n' => exact ⟨d, n', rfl⟩
    have hv : okAfter (docOf (k0 :: ks) (next :: rest)) = true := by
      rw [hnext, okAfter_docOf]
      rw [hnext] at hhead
      simp only [Bool.not_eq_true'] at hhead ⊢
      exact hhead
    have hofree : occurs (k0 :: ks) pw u = false := by
      cases pw with
      | false => exact hfree u (by simp)
      | true => exact occursTrueFalse u (k0 :: ks) false (hfree u (by simp))
    rw [substGlue u pw k0 ks t (docOf (k0 :: ks) (next :: rest)) hkw hlast hofree hv]
    rw [substDocOf (next :: rest) true k0 ks t hkw
      (fun w hw => hfree w (List.mem_cons_of_mem _ hw)) hrest]

/-- A segment document with at least one interleaved token contains the
key. -/
theorem occursDocOf (u next : List Char) (rest : List (List Char)) (k0 : Char)
    (ks : List Char)
    (hkw : (k0 :: ks).all wordChar = true)
    (hchain : chainOk false (u :: next :: rest) = true) :
    occurs (k0 :: ks) false (docOf (k0 :: ks) (u :: next :: rest)) = true := by
  rw [docOf_cons₂]
  simp only [chainOk, Bool.and_eq_true, Bool.not_eq_true'] at hchain
  obtain ⟨⟨hlast, hhead⟩, _⟩ := hchain
  obtain ⟨d, n', hnext⟩ : ∃ d n', next = d :: n' := by
    cases hn : next with
    | nil => rw [hn] at hhead; exact absurd hhead (by simp)
    | cons d n' => exact ⟨d, n', rfl⟩
  have hv : okAfter (docOf (k0 :: ks) (next :: rest)) = true := by
    rw [hnext, okAfter_docOf]
    rw [hnext] at hhead
    simp only [Bool.not_eq_true'] at hhead ⊢
    exact hhead
  exact occursGlue u false k0 ks (docOf (k0 :: ks) (next :: rest)) hkw hlast hv

/-- Folding the replacement loop over a document that contains exactly
the interleaved occurrences of one pair's key and no other mapped key:
that pair replaces its occurrences and is recorded once; every other
pair is skipped. -/
theorem foldOneHit :
    ∀ (ps : List (String × String)) (p : String × String) (segs : List (List Char))
      (acc : List (String × String)),
      p ∈ ps → (∀ q ∈ ps, goodPair q = true) →
      2 ≤ segs.length → chainOk false segs = true →
      (∀ u ∈ segs, occurs p.1.toList false u = false) →
      (∀ q ∈ ps, q ≠ p → occurs q.1.toList false (docOf p.1.toList segs) = false) →
      List.foldl applyPair (docOf p.1.toList segs, acc) ps =
        (docOf p.2.toList segs, acc ++ [p])
  | [], p, _, _, hp, _, _, _, _, _ => absurd hp (by simp)
  | q :: rest, p, segs, acc, hp, hg, hlen, hchain, hfree, habs => by
    rw [List.foldl_cons]
    by_cases hqp : q = p
    · subst hqp
      have hgq := goodPair_props q (hg q (by simp))
      obtain ⟨u, next, rest', hsegs⟩ : ∃ u next rest', segs = u :: next :: rest' := by
        cases segs with
        | nil => simp at hlen
        | cons u tail =>
          cases tail with
          | nil => simp at hlen
          | cons next rest' => exact ⟨u, next, rest', rfl⟩
      cases hk : q.1.toList with
      | nil => exact absurd hk hgq.1
      | cons k0 ks =>
        rw [hk] at hgq hfree habs
        have hocc : occurs (k0 :: ks) false (docOf (k0 :: ks) segs) = true := by
          rw [hsegs]
          rw [hsegs] at hchain
          exact occursDocOf u next rest' k0 ks hgq.2.1 hchain
        have hsub : subst k0 ks q.2.toList false (docOf (k0 :: ks) segs) =
            docOf q.2.toList segs :=
          substDocOf segs false k0 ks q.2.toList hgq.2.1 hfree hchain
        simp only [applyPair, hk, hocc, if_pos rfl]
        rw [hsub]
        apply foldl_applyPair_skip
        intro r hr
        have hgr := goodPair_props r (hg r (List.mem_cons_of_mem _ hr))
        cases hr1 : r.1.toList with
        | nil => exact absurd hr1 hgr.1
        | cons r0 rs =>
          rw [hr1] at hgr
          rw [← hsub]
          apply occursSubstFalse (docOf (k0 :: ks) segs) false (r0 :: rs) k0 ks q.2.toList
            hgr.2.1 hgr.2.2.1 hgq.2.1 hgq.2.2.2.1 hgq.2.2.2.2.1 hgq.2.2.2.2.2
          by_cases hrq : r = q
          · left
            rw [← hr1, hrq, hk]
          · right
            have := habs r (List.mem_cons_of_mem _ hr) hrq
            rwa [hr1] at this
    · have hocc : occurs q.1.toList false (docOf p.1.toList segs) = false :=
        habs q (by simp) hqp
      have hgq := goodPair_props q (hg q (by simp))
      cases hk : q.1.toList with
      | nil => exact absurd hk hgq.1
      | cons k0 ks =>
        rw [hk] at hocc
        simp only [applyPair, hk, hocc, Bool.false_eq_true, if_false]
        have hpr : p ∈ rest := by
          cases List.mem_cons.mp hp with
          | inl h => exact absurd h.symm hqp
          | inr h => exact h
        exact foldOneHit rest p segs acc hpr
          (fun r hr => hg r (List.mem_cons_of_mem _ hr)) hlen hchain hfree
          (fun r hr hrp => habs r (List.mem_cons_of_mem _ hr) hrp)

/-- C5: for every mapping pair, a document consisting of key-free
segments with the pair's token interleaved at identifier boundaries, and
containing no other mapped key, is converted to the same document with
every interleaved occurrence replaced by the target — all other
characters unchanged — with a reported count of 1. -/
theorem c5_isolated_token_replaced :
    ∀ p ∈ column_mappings, ∀ (segs : List (List Char)),
      2 ≤ segs.length →
      chainOk false segs = true →
      (∀ u ∈ segs, occurs p.1.toList false u = false) →
      (∀ q ∈ column_mappings, q ≠ p → occurs q.1.toList false (docOf p.1.toList segs) = false) →
      convertContent (docOf p.1.toList segs) = (docOf p.2.toList segs, 1) := by
  intro p hp segs hlen hchain hfree habs
  simp only [convertContent]
  rw [foldOneHit column_mappings p segs [] hp column_mappings_good hlen hchain hfree habs]
  rfl

set_option maxRecDepth 40000 in
/-- Witness for C5: the document `a userId;` (segments `"a "` and `";"`)
becomes `a user_id;` with count 1. -/
theorem c5_witness :
    convertContent (docOf (lit "userId") [lit "a ", lit ";"]) =
      (docOf (lit "user_id") [lit "a ", lit ";"], 1) :=
  c5_isolated_token_replaced ("userId", "user_id") (by decide) [lit "a ", lit ";"]
    (by decide) (by decide) (by decide) (by decide)
